import Mathlib

/-!
Verification development for the `icalm` calendar merge tool
(`src/main.rs`).  The document model follows the specification's data
model (ordered sequences of components; properties as ordered lists of
key/value pairs with parameter lists); the builder, the merge loop
`CalBuilder::process`, the assembly loop `CalBuilder::calendar` and the
five event processors are translated directly from the source.
-/

namespace Icalm

/-- A property parameter: a key and a value (e.g. a `TZID` parameter). -/
structure Parameter where
  key : String
  value : String
deriving DecidableEq

/-- A calendar property: key, value and an ordered list of parameters. -/
structure Property where
  key : String
  value : String
  params : List Parameter
deriving DecidableEq

/-- First parameter with the given key, mirroring `v.params().get(k)`. -/
def lookupParam : List Parameter → String → Option Parameter
  | [], _ => none
  | q :: qs, k => if q.key = k then some q else lookupParam qs k

/-- First property with the given key, mirroring `property_value(k)`. -/
def propertyValue : List Property → String → Option String
  | [], _ => none
  | p :: ps, k => if p.key = k then some p.value else propertyValue ps k

/-- An event: an ordered sequence of properties. -/
structure Event where
  properties : List Property
deriving DecidableEq

/-- `Event::get_uid`: value of the `UID` property, when present. -/
def Event.get_uid (e : Event) : Option String :=
  propertyValue e.properties "UID"

/-- An opaque component: a kind tag (`component_kind`) plus properties. -/
structure Other where
  kind : String
  properties : List Property
deriving DecidableEq

/-- `Other::property_value`. -/
def Other.property_value (o : Other) (k : String) : Option String :=
  propertyValue o.properties k

/-- A calendar component: an event, an opaque `Other` block, or one of the
remaining component kinds (`Todo`, `Venue`, ...), which the merge loop
treats uniformly via its catch-all arm. -/
inductive CalendarComponent where
  | event (e : Event)
  | other (o : Other)
  | misc (tag : String)
deriving DecidableEq

/-- A parsed calendar document: optional metadata plus components. -/
structure Calendar where
  name : Option String
  description : Option String
  timezone : Option String
  components : List CalendarComponent
deriving DecidableEq

/-- `EventReplacementStrategy`: decides whether a newly observed event
replaces the retained event with the same UID. -/
structure EventReplacementStrategy where
  must_replace : Event → Event → Bool

/-- `DefaultEventReplacementStrategy`: the trait's default, always true. -/
def defaultEventReplacementStrategy : EventReplacementStrategy :=
  ⟨fun _ _ => true⟩

/-- `EventProcessor`: a filter and a transform, each threading mutable
processor state of type `σ` (the Rust trait methods take `&mut self`). -/
structure EventProcessor (σ : Type) where
  filter : σ → Event → Bool × σ
  transform : σ → Event → Option Event × σ

/-- `DefaultEventProcessor`: keep everything, never transform. -/
def defaultEventProcessor : EventProcessor Unit :=
  ⟨fun s _ => (true, s), fun s _ => (none, s)⟩

/-- `RemovePropEventProcessor::transform`: keep a property exactly when
`keep == properties_set.contains(k)`. -/
def removePropTransform (properties_set : List String) (keep : Bool)
    (e : Event) : Event :=
  ⟨e.properties.filter (fun p => keep == properties_set.contains p.key)⟩

/-- `RemovePropEventProcessor` as an event processor. -/
def removePropEventProcessor (properties_set : List String) (keep : Bool) :
    EventProcessor Unit :=
  ⟨fun s _ => (true, s),
   fun s e => (some (removePropTransform properties_set keep e), s)⟩

/-- `ReplacePropEventProcessor::transform`: drop every property named
`property`, then append one fresh `property = value` with no parameters. -/
def replacePropTransform (property value : String) (e : Event) : Event :=
  ⟨(e.properties.filter (fun p => !(p.key == property))) ++
    [⟨property, value, []⟩]⟩

/-- `ReplacePropEventProcessor` as an event processor. -/
def replacePropEventProcessor (property value : String) :
    EventProcessor Unit :=
  ⟨fun s _ => (true, s),
   fun s e => (some (replacePropTransform property value e), s)⟩

/-- `TzSubstEventProcessor::transform`, per property: when the `TZID`
parameter's value equals `from_tz`, rebuild the property with the same key
and value and with every `TZID`-keyed parameter rewritten to `to_tz`. -/
def tzSubstProperty (from_tz to_tz : String) (p : Property) : Property :=
  let to_replace :=
    match lookupParam p.params "TZID" with
    | some tzid => tzid.value == from_tz
    | none => false
  if to_replace then
    ⟨p.key, p.value,
     p.params.map (fun q => if q.key == "TZID" then ⟨q.key, to_tz⟩ else q)⟩
  else p

/-- `TzSubstEventProcessor::transform` over a whole event. -/
def tzSubstTransform (from_tz to_tz : String) (e : Event) : Event :=
  ⟨e.properties.map (tzSubstProperty from_tz to_tz)⟩

/-- `TzSubstEventProcessor` as an event processor. -/
def tzSubstEventProcessor (from_tz to_tz : String) : EventProcessor Unit :=
  ⟨fun s _ => (true, s),
   fun s e => (some (tzSubstTransform from_tz to_tz e), s)⟩

/-- `LimitEventProcessor`: the state is the `remaining` counter; `filter`
returns true and decrements while positive, then always false. -/
def limitEventProcessor : EventProcessor Nat :=
  ⟨fun s _ => if s > 0 then (true, s - 1) else (false, s),
   fun s _ => (none, s)⟩

/-- The merge builder: retained components, the UID-to-index `id_map`, and
calendar metadata (`CalBuilder` minus the borrowed strategy, which is
passed explicitly to `process`). -/
structure CalBuilder where
  components : List CalendarComponent
  id_map : List (String × Nat)
  name : Option String
  description : Option String
  timezone : Option String
deriving DecidableEq

/-- Lookup in the UID index, mirroring `HashMap::get`. -/
def lookupId : List (String × Nat) → String → Option Nat
  | [], _ => none
  | (k, v) :: rest, key => if k = key then some v else lookupId rest key

/-- `CalBuilder::new`: empty sequence and index; name and description come
from the command line, the timezone starts unset. -/
def newCalBuilder (name description : Option String) : CalBuilder :=
  ⟨[], [], name, description, none⟩

/-- `CalBuilder::or_calendar`: fill each still-unset metadata field from
the ingested calendar (`self.name.take().or(calendar.get_name())`). -/
def CalBuilder.or_calendar (b : CalBuilder) (cal : Calendar) : CalBuilder :=
  { b with
    name := b.name.or cal.name,
    description := b.description.or cal.description,
    timezone := b.timezone.or cal.timezone }

/-- The state mutated by the loop body of `CalBuilder::process`: the
builder's components and index, plus the call-local `tzid_set`. -/
structure ProcessState where
  components : List CalendarComponent
  id_map : List (String × Nat)
  tzid_set : List String
deriving DecidableEq

/-- One iteration of the component loop in `CalBuilder::process`. -/
def processComponent (ers : EventReplacementStrategy) (st : ProcessState)
    (c : CalendarComponent) : ProcessState :=
  match c with
  | .event event =>
    match event.get_uid with
    | some uid =>
      match lookupId st.id_map uid with
      | some index =>
        let to_replace :=
          match st.components[index]? with
          | some (.event old_event) => ers.must_replace event old_event
          | _ => false
        if to_replace then
          { st with components := st.components.set index c }
        else st
      | none =>
        { st with
          id_map := (uid, st.components.length) :: st.id_map,
          components := st.components ++ [c] }
    | none => st
  | .other other =>
    if other.kind == "VTIMEZONE" then
      match other.property_value "TZID" with
      | some tzid =>
        if st.tzid_set.contains tzid then st
        else
          { st with
            tzid_set := tzid :: st.tzid_set,
            components := st.components ++ [c] }
      | none => { st with components := st.components ++ [c] }
    else { st with components := st.components ++ [c] }
  | .misc _ => { st with components := st.components ++ [c] }

/-- `CalBuilder::process` on a parsed document: merge metadata, then run
the component loop with a freshly created (call-local) `tzid_set`. -/
def CalBuilder.process (ers : EventReplacementStrategy) (b : CalBuilder)
    (cal : Calendar) : CalBuilder :=
  let b2 := b.or_calendar cal
  let st := cal.components.foldl (processComponent ers)
    ⟨b2.components, b2.id_map, []⟩
  { b2 with components := st.components, id_map := st.id_map }

/-- A whole run's ingestion: a fresh builder fed the documents in order. -/
def buildAll (ers : EventReplacementStrategy)
    (name description : Option String) (docs : List Calendar) : CalBuilder :=
  docs.foldl (CalBuilder.process ers) (newCalBuilder name description)

/-- `CalBuilder::empty_calendar`: the resolved metadata, no components. -/
def CalBuilder.empty_calendar (b : CalBuilder) : Calendar :=
  ⟨b.name, b.description, b.timezone, []⟩

/-- The component loop of `CalBuilder::calendar`: filter is consulted for
events only; a transformed event replaces the original, otherwise the
component is pushed unchanged. -/
def calendarLoop {σ : Type} (ep : EventProcessor σ) :
    σ → List CalendarComponent → List CalendarComponent
  | _, [] => []
  | s, c :: cs =>
    match c with
    | .event ev =>
      match ep.filter s ev with
      | (true, s1) =>
        match ep.transform s1 ev with
        | (some ev2, s2) => .event ev2 :: calendarLoop ep s2 cs
        | (none, s2) => c :: calendarLoop ep s2 cs
      | (false, s1) => calendarLoop ep s1 cs
    | _ => c :: calendarLoop ep s cs

/-- `CalBuilder::calendar`: assemble the output document by running the
event processor (with initial state `s`) over the retained sequence. -/
def CalBuilder.calendar {σ : Type} (b : CalBuilder) (ep : EventProcessor σ)
    (s : σ) : Calendar :=
  { b.empty_calendar with components := calendarLoop ep s b.components }

/-- The events of a component sequence, in order. -/
def eventsOf (cs : List CalendarComponent) : List Event :=
  cs.filterMap (fun c => match c with
    | .event e => some e
    | _ => none)

/-- The UIDs of those events that have one, in order. -/
def uidsOf (cs : List CalendarComponent) : List String :=
  cs.filterMap (fun c => match c with
    | .event e => e.get_uid
    | _ => none)

/-- The `TZID` secondary keys of the `VTIMEZONE` `Other`-components that
carry one, in order. -/
def tzidKeysOf (cs : List CalendarComponent) : List String :=
  cs.filterMap (fun c => match c with
    | .other o => if o.kind == "VTIMEZONE" then o.property_value "TZID" else none
    | _ => none)

/-- The `VTIMEZONE` `Other`-components of a sequence, in order. -/
def vtimezonesOf (cs : List CalendarComponent) : List Other :=
  cs.filterMap (fun c => match c with
    | .other o => if o.kind == "VTIMEZONE" then some o else none
    | _ => none)

/-- Modelled from the spec: first-seen-key-wins deduplication of the
deduplicated-kind components of one document. The first component seen
with a given secondary key is retained and its key recorded as seen;
every later component whose key has already been seen is discarded (not
substituted for the retained one); a component without a secondary key is
always retained. -/
def specFirstWins (seen : List String) : List Other → List Other
  | [] => []
  | o :: os =>
    match o.property_value "TZID" with
    | some k =>
      if k ∈ seen then specFirstWins seen os
      else o :: specFirstWins (k :: seen) os
    | none => o :: specFirstWins seen os

/-! ## Helper lemmas -/

lemma uidsOf_append (cs ds : List CalendarComponent) :
    uidsOf (cs ++ ds) = uidsOf cs ++ uidsOf ds :=
  List.filterMap_append cs ds _

lemma tzidKeysOf_append (cs ds : List CalendarComponent) :
    tzidKeysOf (cs ++ ds) = tzidKeysOf cs ++ tzidKeysOf ds :=
  List.filterMap_append cs ds _

lemma filterMap_set_congr {α β : Type} (f : α → Option β) (l : List α)
    (i : Nat) (a : α) (h : ∀ b, l[i]? = some b → f b = f a) :
    (l.set i a).filterMap f = l.filterMap f := by
  induction l generalizing i with
  | nil => rfl
  | cons x xs ih =>
    cases i with
    | zero =>
      have hx : f x = f a := h x (by simp)
      rw [List.set_cons_zero, List.filterMap_cons, List.filterMap_cons, hx]
    | succ n =>
      have h' : ∀ b, xs[n]? = some b → f b = f a := by
        intro b hb; exact h b (by simpa using hb)
      rw [List.set_cons_succ, List.filterMap_cons, List.filterMap_cons]
      cases hfx : f x
      · simp only [hfx]; exact ih n h'
      · simp only [hfx]; rw [ih n h']

lemma filterMap_set_sublist {α β : Type} (f : α → Option β) (l : List α)
    (i : Nat) (a : α) (ha : f a = none) :
    List.Sublist ((l.set i a).filterMap f) (l.filterMap f) := by
  induction l generalizing i with
  | nil => simp
  | cons x xs ih =>
    cases i with
    | zero =>
      rw [List.set_cons_zero, List.filterMap_cons, List.filterMap_cons, ha]
      cases hfx : f x
      · simp only [hfx]; exact List.Sublist.refl _
      · simp only [hfx]; exact List.Sublist.cons _ (List.Sublist.refl _)
    | succ n =>
      rw [List.set_cons_succ, List.filterMap_cons, List.filterMap_cons]
      cases hfx : f x
      · simp only [hfx]; exact ih n
      · simp only [hfx]; exact List.Sublist.cons₂ _ (ih n)

lemma lt_length_of_getElem?_some {α : Type} {l : List α} {i : Nat} {a : α}
    (h : l[i]? = some a) : i < l.length :=
  (List.getElem?_eq_some.mp h).1

lemma mem_of_getElem?_some {α : Type} {l : List α} {i : Nat} {a : α}
    (h : l[i]? = some a) : a ∈ l := by
  obtain ⟨hlt, he⟩ := List.getElem?_eq_some.mp h
  exact he ▸ List.getElem_mem hlt

lemma getElem?_append_left' {α : Type} {l₁ l₂ : List α} {i : Nat}
    (h : i < l₁.length) : (l₁ ++ l₂)[i]? = l₁[i]? := by
  simp [List.getElem?_append, h]

lemma mem_uidsOf {cs : List CalendarComponent} {uid : String} :
    uid ∈ uidsOf cs ↔
      ∃ (i : Nat) (e : Event), cs[i]? = some (CalendarComponent.event e) ∧
        e.get_uid = some uid := by
  constructor
  · intro h
    obtain ⟨c, hc, hf⟩ := List.mem_filterMap.mp h
    obtain ⟨i, hlt, he⟩ := List.mem_iff_getElem.mp hc
    cases c with
    | event e =>
      exact ⟨i, e, by rw [List.getElem?_eq_getElem hlt, he], by simpa using hf⟩
    | other o => simp at hf
    | misc t => simp at hf
  · rintro ⟨i, e, hi, he⟩
    exact List.mem_filterMap.mpr
      ⟨CalendarComponent.event e, mem_of_getElem?_some hi, by simpa using he⟩

/-! ## The builder invariant -/

/-- Every index recorded in the identity map is in bounds and holds an
event whose UID is the recorded key. -/
def IndexOk (cs : List CalendarComponent) (m : List (String × Nat)) : Prop :=
  ∀ uid i, lookupId m uid = some i →
    ∃ e, cs[i]? = some (CalendarComponent.event e) ∧ e.get_uid = some uid

/-- Every retained event with a UID is indexed at its own position. -/
def BackOk (cs : List CalendarComponent) (m : List (String × Nat)) : Prop :=
  ∀ i e uid, cs[i]? = some (CalendarComponent.event e) →
    e.get_uid = some uid → lookupId m uid = some i

/-- The builder invariant: the index is correct in both directions and
the retained events have pairwise distinct UIDs. -/
def StateInv (cs : List CalendarComponent) (m : List (String × Nat)) : Prop :=
  IndexOk cs m ∧ BackOk cs m ∧ (uidsOf cs).Nodup

lemma stateInv_nil : StateInv [] [] := by
  refine ⟨?_, ?_, ?_⟩
  · intro uid i h; exact absurd h (by simp [lookupId])
  · intro i e uid hget huid; simp at hget
  · simp [uidsOf]

lemma lookupId_cons (k : String) (v : Nat) (rest : List (String × Nat))
    (key : String) :
    lookupId ((k, v) :: rest) key =
      if k = key then some v else lookupId rest key := rfl

lemma getElem?_set_eq' {α : Type} {l : List α} {i : Nat} {a : α}
    (h : i < l.length) : (l.set i a)[i]? = some a := by
  rw [List.getElem?_set_self', List.getElem?_eq_getElem h]
  rfl

lemma processComponent_event_nouid (ers : EventReplacementStrategy)
    (st : ProcessState) (ev : Event) (hu : ev.get_uid = none) :
    processComponent ers st (.event ev) = st := by
  simp only [processComponent, hu]

lemma processComponent_event_fresh (ers : EventReplacementStrategy)
    (st : ProcessState) (ev : Event) (uid : String)
    (hu : ev.get_uid = some uid) (hl : lookupId st.id_map uid = none) :
    processComponent ers st (.event ev) =
      { st with
        id_map := (uid, st.components.length) :: st.id_map,
        components := st.components ++ [.event ev] } := by
  simp only [processComponent, hu, hl]

lemma processComponent_event_found (ers : EventReplacementStrategy)
    (st : ProcessState) (ev old : Event) (uid : String) (index : Nat)
    (hu : ev.get_uid = some uid) (hl : lookupId st.id_map uid = some index)
    (hold : st.components[index]? = some (.event old)) :
    processComponent ers st (.event ev) =
      (if ers.must_replace ev old then
        { st with components := st.components.set index (.event ev) }
      else st) := by
  simp only [processComponent, hu, hl, hold]

lemma stateInv_append_nonevent {cs : List CalendarComponent}
    {m : List (String × Nat)} {c : CalendarComponent}
    (hne : ∀ e, c ≠ CalendarComponent.event e) (h : StateInv cs m) :
    StateInv (cs ++ [c]) m := by
  obtain ⟨h1, h2, h3⟩ := h
  refine ⟨?_, ?_, ?_⟩
  · intro uid i hl
    obtain ⟨e, he, hu⟩ := h1 uid i hl
    refine ⟨e, ?_, hu⟩
    rw [getElem?_append_left' (lt_length_of_getElem?_some he)]
    exact he
  · intro i e uid hget huid
    have hlen : i < cs.length + 1 := by
      have := lt_length_of_getElem?_some hget
      simpa using this
    rcases (by omega : i < cs.length ∨ i = cs.length) with hi | hi
    · exact h2 i e uid (by rw [getElem?_append_left' hi] at hget; exact hget) huid
    · subst hi
      rw [List.getElem?_concat_length] at hget
      exact absurd (Option.some.inj hget) (hne e)
  · have hnil : uidsOf [c] = [] := by
      cases c with
      | event e => exact absurd rfl (hne e)
      | other o => simp [uidsOf]
      | misc t => simp [uidsOf]
    rw [uidsOf_append, hnil, List.append_nil]
    exact h3

lemma stateInv_event_fresh {cs : List CalendarComponent}
    {m : List (String × Nat)} {ev : Event} {uid : String}
    (hu : ev.get_uid = some uid) (hl : lookupId m uid = none)
    (h : StateInv cs m) :
    StateInv (cs ++ [CalendarComponent.event ev]) ((uid, cs.length) :: m) := by
  obtain ⟨h1, h2, h3⟩ := h
  have hfresh : uid ∉ uidsOf cs := by
    intro hmem
    obtain ⟨i, e, hi, he⟩ := mem_uidsOf.mp hmem
    have hb := h2 i e uid hi he
    rw [hl] at hb
    exact Option.noConfusion hb
  refine ⟨?_, ?_, ?_⟩
  · intro uid' i hl'
    rw [lookupId_cons] at hl'
    by_cases huu : uid = uid'
    · rw [if_pos huu] at hl'
      obtain rfl : cs.length = i := Option.some.inj hl'
      refine ⟨ev, ?_, ?_⟩
      · rw [List.getElem?_concat_length]
      · rw [hu, huu]
    · rw [if_neg huu] at hl'
      obtain ⟨e, he, hue⟩ := h1 uid' i hl'
      refine ⟨e, ?_, hue⟩
      rw [getElem?_append_left' (lt_length_of_getElem?_some he)]
      exact he
  · intro i e uid' hget huid'
    have hlen : i < cs.length + 1 := by
      simpa using lt_length_of_getElem?_some hget
    rcases (by omega : i < cs.length ∨ i = cs.length) with hi | hi
    · rw [getElem?_append_left' hi] at hget
      have hb := h2 i e uid' hget huid'
      have hne : uid ≠ uid' := by
        intro hq
        rw [hq, hb] at hl
        exact Option.noConfusion hl
      rw [lookupId_cons, if_neg hne]
      exact hb
    · subst hi
      rw [List.getElem?_concat_length] at hget
      obtain rfl : ev = e := CalendarComponent.event.inj (Option.some.inj hget)
      have huu : uid = uid' := by
        rw [hu] at huid'
        exact Option.some.inj huid'
      rw [lookupId_cons, if_pos huu]
  · have hone : uidsOf [CalendarComponent.event ev] = [uid] := by
      simp [uidsOf, hu]
    rw [uidsOf_append, hone]
    simp [List.nodup_append, h3, hfresh]

lemma stateInv_event_replace {cs : List CalendarComponent}
    {m : List (String × Nat)} {ev old : Event} {uid : String} {index : Nat}
    (hu : ev.get_uid = some uid) (hl : lookupId m uid = some index)
    (hold : cs[index]? = some (CalendarComponent.event old))
    (holduid : old.get_uid = some uid) (h : StateInv cs m) :
    StateInv (cs.set index (CalendarComponent.event ev)) m := by
  obtain ⟨h1, h2, h3⟩ := h
  have hidx : index < cs.length := lt_length_of_getElem?_some hold
  refine ⟨?_, ?_, ?_⟩
  · intro uid' i hl'
    obtain ⟨e, he, hue⟩ := h1 uid' i hl'
    by_cases hii : index = i
    · subst hii
      rw [hold] at he
      obtain rfl : old = e := CalendarComponent.event.inj (Option.some.inj he)
      have huu : uid = uid' := by
        rw [holduid] at hue
        exact Option.some.inj hue
      refine ⟨ev, getElem?_set_eq' hidx, ?_⟩
      rw [hu, huu]
    · refine ⟨e, ?_, hue⟩
      rw [List.getElem?_set_ne hii]
      exact he
  · intro i e uid' hget huid'
    by_cases hii : index = i
    · subst hii
      rw [getElem?_set_eq' hidx] at hget
      obtain rfl : ev = e := CalendarComponent.event.inj (Option.some.inj hget)
      have huu : uid = uid' := by
        rw [hu] at huid'
        exact Option.some.inj huid'
      rw [← huu]
      exact hl
    · rw [List.getElem?_set_ne hii] at hget
      exact h2 i e uid' hget huid'
  · have heq : uidsOf (cs.set index (CalendarComponent.event ev)) =
        uidsOf cs := by
      apply filterMap_set_congr
      intro b hb
      rw [hold] at hb
      obtain rfl : CalendarComponent.event old = b := Option.some.inj hb
      simp only [holduid, hu]
    rw [heq]
    exact h3

lemma stateInv_processComponent (ers : EventReplacementStrategy)
    (st : ProcessState) (c : CalendarComponent)
    (h : StateInv st.components st.id_map) :
    StateInv (processComponent ers st c).components
      (processComponent ers st c).id_map := by
  cases c with
  | misc t =>
    exact stateInv_append_nonevent (fun e h' => CalendarComponent.noConfusion h') h
  | other o =>
    have happ : StateInv (st.components ++ [CalendarComponent.other o]) st.id_map :=
      stateInv_append_nonevent (fun e h' => CalendarComponent.noConfusion h') h
    simp only [processComponent]
    split
    · cases hpv : o.property_value "TZID" with
      | none => simp only [hpv]; exact happ
      | some tzid =>
        simp only [hpv]
        split
        · exact h
        · exact happ
    · exact happ
  | event ev =>
    cases hu : ev.get_uid with
    | none => rw [processComponent_event_nouid ers st ev hu]; exact h
    | some uid =>
      cases hl : lookupId st.id_map uid with
      | none =>
        rw [processComponent_event_fresh ers st ev uid hu hl]
        exact stateInv_event_fresh hu hl h
      | some index =>
        obtain ⟨old, hold, holduid⟩ := h.1 uid index hl
        rw [processComponent_event_found ers st ev old uid index hu hl hold]
        cases hrep : ers.must_replace ev old
        · simp only [hrep, Bool.false_eq_true, if_false]; exact h
        · simp only [hrep, if_true]
          exact stateInv_event_replace hu hl hold holduid h

lemma stateInv_fold (ers : EventReplacementStrategy)
    (cs : List CalendarComponent) :
    ∀ st : ProcessState, StateInv st.components st.id_map →
      StateInv (cs.foldl (processComponent ers) st).components
        (cs.foldl (processComponent ers) st).id_map := by
  induction cs with
  | nil => intro st h; exact h
  | cons c cs ih =>
    intro st h
    exact ih (processComponent ers st c) (stateInv_processComponent ers st c h)

lemma stateInv_process (ers : EventReplacementStrategy) (b : CalBuilder)
    (cal : Calendar) (h : StateInv b.components b.id_map) :
    StateInv (CalBuilder.process ers b cal).components
      (CalBuilder.process ers b cal).id_map :=
  stateInv_fold ers cal.components ⟨b.components, b.id_map, []⟩ h

lemma stateInv_buildAll (ers : EventReplacementStrategy)
    (nm dsc : Option String) (docs : List Calendar) :
    StateInv (buildAll ers nm dsc docs).components
      (buildAll ers nm dsc docs).id_map := by
  suffices h : ∀ (ds : List Calendar) (b : CalBuilder),
      StateInv b.components b.id_map →
      StateInv (ds.foldl (CalBuilder.process ers) b).components
        (ds.foldl (CalBuilder.process ers) b).id_map from
    h docs (newCalBuilder nm dsc) stateInv_nil
  intro ds
  induction ds with
  | nil => intro b h; exact h
  | cons d ds ih =>
    intro b h
    exact ih (CalBuilder.process ers b d) (stateInv_process ers b d h)

/-! ## Assembly loop lemmas -/

lemma calendarLoop_cons_event {σ : Type} (ep : EventProcessor σ) (s : σ)
    (ev : Event) (cs : List CalendarComponent) :
    calendarLoop ep s (CalendarComponent.event ev :: cs) =
      (match ep.filter s ev with
       | (true, s1) =>
         match ep.transform s1 ev with
         | (some ev2, s2) =>
           CalendarComponent.event ev2 :: calendarLoop ep s2 cs
         | (none, s2) => CalendarComponent.event ev :: calendarLoop ep s2 cs
       | (false, s1) => calendarLoop ep s1 cs) := rfl

lemma calendarLoop_cons_other {σ : Type} (ep : EventProcessor σ) (s : σ)
    (o : Other) (cs : List CalendarComponent) :
    calendarLoop ep s (CalendarComponent.other o :: cs) =
      CalendarComponent.other o :: calendarLoop ep s cs := rfl

lemma calendarLoop_cons_misc {σ : Type} (ep : EventProcessor σ) (s : σ)
    (t : String) (cs : List CalendarComponent) :
    calendarLoop ep s (CalendarComponent.misc t :: cs) =
      CalendarComponent.misc t :: calendarLoop ep s cs := rfl

lemma calendarLoop_cons_event_dropped {σ : Type} (ep : EventProcessor σ)
    (s s1 : σ) (ev : Event) (cs : List CalendarComponent)
    (hf : ep.filter s ev = (false, s1)) :
    calendarLoop ep s (CalendarComponent.event ev :: cs) =
      calendarLoop ep s1 cs := by
  rw [calendarLoop_cons_event, hf]

lemma calendarLoop_cons_event_kept_orig {σ : Type} (ep : EventProcessor σ)
    (s s1 s2 : σ) (ev : Event) (cs : List CalendarComponent)
    (hf : ep.filter s ev = (true, s1)) (ht : ep.transform s1 ev = (none, s2)) :
    calendarLoop ep s (CalendarComponent.event ev :: cs) =
      CalendarComponent.event ev :: calendarLoop ep s2 cs := by
  rw [calendarLoop_cons_event, hf]
  dsimp only
  rw [ht]

lemma calendarLoop_cons_event_kept_new {σ : Type} (ep : EventProcessor σ)
    (s s1 s2 : σ) (ev ev2 : Event) (cs : List CalendarComponent)
    (hf : ep.filter s ev = (true, s1))
    (ht : ep.transform s1 ev = (some ev2, s2)) :
    calendarLoop ep s (CalendarComponent.event ev :: cs) =
      CalendarComponent.event ev2 :: calendarLoop ep s2 cs := by
  rw [calendarLoop_cons_event, hf]
  dsimp only
  rw [ht]

lemma eventsOf_cons_event (ev : Event) (l : List CalendarComponent) :
    eventsOf (CalendarComponent.event ev :: l) = ev :: eventsOf l := rfl

lemma eventsOf_cons_other (o : Other) (l : List CalendarComponent) :
    eventsOf (CalendarComponent.other o :: l) = eventsOf l := rfl

lemma eventsOf_cons_misc (t : String) (l : List CalendarComponent) :
    eventsOf (CalendarComponent.misc t :: l) = eventsOf l := rfl

lemma uidsOf_cons_other (o : Other) (l : List CalendarComponent) :
    uidsOf (CalendarComponent.other o :: l) = uidsOf l := rfl

lemma uidsOf_cons_misc (t : String) (l : List CalendarComponent) :
    uidsOf (CalendarComponent.misc t :: l) = uidsOf l := rfl

lemma uidsOf_cons_event_some {ev : Event} {u : String} (hu : ev.get_uid = some u)
    (l : List CalendarComponent) :
    uidsOf (CalendarComponent.event ev :: l) = u :: uidsOf l := by
  simp only [uidsOf, List.filterMap_cons, hu]

lemma uidsOf_cons_event_none {ev : Event} (hu : ev.get_uid = none)
    (l : List CalendarComponent) :
    uidsOf (CalendarComponent.event ev :: l) = uidsOf l := by
  simp only [uidsOf, List.filterMap_cons, hu]

lemma eventsOf_calendarLoop_limit :
    ∀ (s : Nat) (cs : List CalendarComponent),
      eventsOf (calendarLoop limitEventProcessor s cs) =
        (eventsOf cs).take s := by
  intro s cs
  induction cs generalizing s with
  | nil => simp [calendarLoop, eventsOf]
  | cons c cs ih =>
    cases c with
    | event ev =>
      rw [eventsOf_cons_event]
      cases s with
      | zero =>
        rw [calendarLoop_cons_event_dropped limitEventProcessor 0 0 ev cs
          (by simp [limitEventProcessor])]
        rw [ih 0]
        simp
      | succ n =>
        rw [calendarLoop_cons_event_kept_orig limitEventProcessor (n + 1) n n
          ev cs (by simp [limitEventProcessor]) rfl]
        rw [eventsOf_cons_event, ih n, List.take_succ_cons]
    | other o =>
      rw [calendarLoop_cons_other, eventsOf_cons_other, eventsOf_cons_other]
      exact ih s
    | misc t =>
      rw [calendarLoop_cons_misc, eventsOf_cons_misc, eventsOf_cons_misc]
      exact ih s

lemma uidsOf_calendarLoop_sublist {σ : Type} (ep : EventProcessor σ)
    (hpres : ∀ (s : σ) (e e2 : Event) (s2 : σ),
      ep.transform s e = (some e2, s2) → e2.get_uid = e.get_uid) :
    ∀ (s : σ) (cs : List CalendarComponent),
      List.Sublist (uidsOf (calendarLoop ep s cs)) (uidsOf cs) := by
  intro s cs
  induction cs generalizing s with
  | nil => simp [calendarLoop]
  | cons c cs ih =>
    cases c with
    | event ev =>
      rcases hf : ep.filter s ev with ⟨retain, s1⟩
      cases retain
      · rw [calendarLoop_cons_event_dropped ep s s1 ev cs hf]
        cases hu : ev.get_uid with
        | none =>
          rw [uidsOf_cons_event_none hu]
          exact ih s1
        | some u =>
          rw [uidsOf_cons_event_some hu]
          exact List.Sublist.cons u (ih s1)
      · rcases ht : ep.transform s1 ev with ⟨r, s2⟩
        cases r with
        | none =>
          rw [calendarLoop_cons_event_kept_orig ep s s1 s2 ev cs hf ht]
          cases hu : ev.get_uid with
          | none =>
            rw [uidsOf_cons_event_none hu, uidsOf_cons_event_none hu]
            exact ih s2
          | some u =>
            rw [uidsOf_cons_event_some hu, uidsOf_cons_event_some hu]
            exact List.Sublist.cons₂ u (ih s2)
        | some ev2 =>
          rw [calendarLoop_cons_event_kept_new ep s s1 s2 ev ev2 cs hf ht]
          have hsame : ev2.get_uid = ev.get_uid := hpres s1 ev ev2 s2 ht
          cases hu : ev.get_uid with
          | none =>
            rw [uidsOf_cons_event_none (hsame.trans hu),
              uidsOf_cons_event_none hu]
            exact ih s2
          | some u =>
            rw [uidsOf_cons_event_some (hsame.trans hu),
              uidsOf_cons_event_some hu]
            exact List.Sublist.cons₂ u (ih s2)
    | other o =>
      rw [calendarLoop_cons_other, uidsOf_cons_other, uidsOf_cons_other]
      exact ih s
    | misc t =>
      rw [calendarLoop_cons_misc, uidsOf_cons_misc, uidsOf_cons_misc]
      exact ih s

/-! ## Shape of one merge step -/

lemma processComponent_components_shape (ers : EventReplacementStrategy)
    (st : ProcessState) (c : CalendarComponent) :
    (processComponent ers st c).components = st.components ∨
    ((processComponent ers st c).components = st.components ++ [c] ∧
      ∀ ev, c = CalendarComponent.event ev → ev.get_uid ≠ none) ∨
    ∃ index ev uid, c = CalendarComponent.event ev ∧ ev.get_uid = some uid ∧
      (processComponent ers st c).components =
        st.components.set index (CalendarComponent.event ev) := by
  cases c with
  | misc t =>
    right; left
    exact ⟨rfl, fun ev h => CalendarComponent.noConfusion h⟩
  | other o =>
    by_cases hk : o.kind = "VTIMEZONE"
    · cases hpv : o.property_value "TZID" with
      | none =>
        right; left
        refine ⟨?_, fun ev h => CalendarComponent.noConfusion h⟩
        simp [processComponent, hk, hpv]
      | some tzid =>
        by_cases hmem : tzid ∈ st.tzid_set
        · left
          simp [processComponent, hk, hpv, hmem]
        · right; left
          refine ⟨?_, fun ev h => CalendarComponent.noConfusion h⟩
          simp [processComponent, hk, hpv, hmem]
    · right; left
      refine ⟨?_, fun ev h => CalendarComponent.noConfusion h⟩
      simp [processComponent, hk]
  | event ev =>
    cases hu : ev.get_uid with
    | none =>
      left
      rw [processComponent_event_nouid ers st ev hu]
    | some uid =>
      cases hl : lookupId st.id_map uid with
      | none =>
        right; left
        refine ⟨?_, ?_⟩
        · rw [processComponent_event_fresh ers st ev uid hu hl]
        · intro ev2 h
          obtain rfl : ev = ev2 := CalendarComponent.event.inj h
          rw [hu]
          exact fun hn => Option.noConfusion hn
      | some index =>
        cases hcomp : st.components[index]? with
        | none =>
          left
          simp [processComponent, hu, hl, hcomp]
        | some c2 =>
          cases c2 with
          | event old =>
            rw [processComponent_event_found ers st ev old uid index hu hl hcomp]
            cases hrep : ers.must_replace ev old
            · left; simp [hrep]
            · right; right
              exact ⟨index, ev, uid, rfl, hu, by simp [hrep]⟩
          | other o2 =>
            left
            simp [processComponent, hu, hl, hcomp]
          | misc t2 =>
            left
            simp [processComponent, hu, hl, hcomp]

lemma mem_processComponent_uidless {ers : EventReplacementStrategy}
    {st : ProcessState} {c : CalendarComponent} {e : Event}
    (hu : e.get_uid = none)
    (h : CalendarComponent.event e ∈ (processComponent ers st c).components) :
    CalendarComponent.event e ∈ st.components := by
  rcases processComponent_components_shape ers st c with
    hs | ⟨hs, hev⟩ | ⟨index, ev, uid, rfl, huid, hs⟩
  · rwa [hs] at h
  · rw [hs] at h
    rcases List.mem_append.mp h with hm | hm
    · exact hm
    · exact absurd hu (hev e (List.mem_singleton.mp hm).symm)
  · rw [hs] at h
    rcases List.mem_or_eq_of_mem_set h with hm | hm
    · exact hm
    · obtain rfl : e = ev := CalendarComponent.event.inj hm
      rw [huid] at hu
      exact Option.noConfusion hu

lemma mem_process_uidless (ers : EventReplacementStrategy) (b : CalBuilder)
    (cal : Calendar) (e : Event) (hu : e.get_uid = none)
    (h : CalendarComponent.event e ∈
      (CalBuilder.process ers b cal).components) :
    CalendarComponent.event e ∈ b.components := by
  suffices hf : ∀ (cs : List CalendarComponent) (st : ProcessState),
      CalendarComponent.event e ∈
        (cs.foldl (processComponent ers) st).components →
      CalendarComponent.event e ∈ st.components from
    hf cal.components ⟨b.components, b.id_map, []⟩ h
  intro cs
  induction cs with
  | nil => intro st h'; exact h'
  | cons c cs ih =>
    intro st h'
    exact mem_processComponent_uidless hu (ih (processComponent ers st c) h')

/-! ## Per-document secondary-key deduplication -/

lemma processComponent_event_tzid_set (ers : EventReplacementStrategy)
    (st : ProcessState) (ev : Event) :
    (processComponent ers st (CalendarComponent.event ev)).tzid_set =
      st.tzid_set := by
  cases hu : ev.get_uid with
  | none => rw [processComponent_event_nouid ers st ev hu]
  | some u =>
    cases hl : lookupId st.id_map u with
    | none => rw [processComponent_event_fresh ers st ev u hu hl]
    | some index =>
      cases hcomp : st.components[index]? with
      | none => simp [processComponent, hu, hl, hcomp]
      | some c2 =>
        cases c2 with
        | event old =>
          rw [processComponent_event_found ers st ev old u index hu hl hcomp]
          split <;> rfl
        | other o2 => simp [processComponent, hu, hl, hcomp]
        | misc t2 => simp [processComponent, hu, hl, hcomp]

lemma processComponent_tzid_shape (ers : EventReplacementStrategy)
    (st : ProcessState) (c : CalendarComponent) :
    ((processComponent ers st c).tzid_set = st.tzid_set ∧
      List.Sublist (tzidKeysOf (processComponent ers st c).components)
        (tzidKeysOf st.components)) ∨
    ∃ tzid, tzid ∉ st.tzid_set ∧
      (processComponent ers st c).tzid_set = tzid :: st.tzid_set ∧
      tzidKeysOf (processComponent ers st c).components =
        tzidKeysOf st.components ++ [tzid] := by
  cases c with
  | misc t =>
    left
    refine ⟨rfl, ?_⟩
    rw [show (processComponent ers st (CalendarComponent.misc t)).components =
      st.components ++ [CalendarComponent.misc t] from rfl]
    rw [tzidKeysOf_append,
      show tzidKeysOf [CalendarComponent.misc t] = [] from rfl,
      List.append_nil]
  | other o =>
    by_cases hk : o.kind = "VTIMEZONE"
    · cases hpv : o.property_value "TZID" with
      | none =>
        left
        refine ⟨by simp [processComponent, hk, hpv], ?_⟩
        have hcomps :
            (processComponent ers st (CalendarComponent.other o)).components =
            st.components ++ [CalendarComponent.other o] := by
          simp [processComponent, hk, hpv]
        have hnil : tzidKeysOf [CalendarComponent.other o] = [] := by
          simp [tzidKeysOf, List.filterMap_cons, hk, hpv]
        rw [hcomps, tzidKeysOf_append, hnil, List.append_nil]
      | some tzid =>
        by_cases hmem : tzid ∈ st.tzid_set
        · left
          constructor
          · simp [processComponent, hk, hpv, hmem]
          · have hcomps :
                (processComponent ers st (CalendarComponent.other o)).components =
                st.components := by simp [processComponent, hk, hpv, hmem]
            rw [hcomps]
        · right
          refine ⟨tzid, hmem, ?_, ?_⟩
          · simp [processComponent, hk, hpv, hmem]
          · have hcomps :
                (processComponent ers st (CalendarComponent.other o)).components =
                st.components ++ [CalendarComponent.other o] := by
              simp [processComponent, hk, hpv, hmem]
            have hone : tzidKeysOf [CalendarComponent.other o] = [tzid] := by
              simp [tzidKeysOf, List.filterMap_cons, hk, hpv]
            rw [hcomps, tzidKeysOf_append, hone]
    · left
      refine ⟨by simp [processComponent, hk], ?_⟩
      have hcomps :
          (processComponent ers st (CalendarComponent.other o)).components =
          st.components ++ [CalendarComponent.other o] := by
        simp [processComponent, hk]
      have hnil : tzidKeysOf [CalendarComponent.other o] = [] := by
        simp [tzidKeysOf, List.filterMap_cons, hk]
      rw [hcomps, tzidKeysOf_append, hnil, List.append_nil]
  | event ev =>
    left
    refine ⟨processComponent_event_tzid_set ers st ev, ?_⟩
    rcases processComponent_components_shape ers st (CalendarComponent.event ev)
      with hs | ⟨hs, _⟩ | ⟨index, ev2, uid, heq, huid, hs⟩
    · rw [hs]
    · rw [hs, tzidKeysOf_append,
        show tzidKeysOf [CalendarComponent.event ev] = [] from rfl,
        List.append_nil]
    · rw [hs]
      exact filterMap_set_sublist _ st.components index
        (CalendarComponent.event ev2) rfl

lemma tzid_fold_nodup (ers : EventReplacementStrategy) :
    ∀ (cs : List CalendarComponent) (st : ProcessState),
      ∃ pre post,
        List.Sublist pre (tzidKeysOf st.components) ∧
        tzidKeysOf ((cs.foldl (processComponent ers) st).components) =
          pre ++ post ∧
        post.Nodup ∧ ∀ k ∈ post, k ∉ st.tzid_set := by
  intro cs
  induction cs with
  | nil =>
    intro st
    refine ⟨tzidKeysOf st.components, [], List.Sublist.refl _, ?_,
      List.nodup_nil, ?_⟩
    · rw [List.foldl_nil, List.append_nil]
    · intro k hk
      exact absurd hk (List.not_mem_nil k)
  | cons c cs ih =>
    intro st
    obtain ⟨pre, post, hpre, heq, hnd, hset⟩ := ih (processComponent ers st c)
    rw [List.foldl_cons]
    rcases processComponent_tzid_shape ers st c with
      ⟨hts, hsub⟩ | ⟨tzid, hmem, hts, hkeys⟩
    · refine ⟨pre, post, hpre.trans hsub, heq, hnd, ?_⟩
      intro k hk
      have hk2 := hset k hk
      rw [hts] at hk2
      exact hk2
    · rw [hkeys] at hpre
      rcases List.sublist_append_iff.mp hpre with ⟨l₁, l₂, rfl, hl₁, hl₂⟩
      rcases List.sublist_singleton.mp hl₂ with rfl | rfl
      · refine ⟨l₁, post, hl₁, ?_, hnd, ?_⟩
        · rw [heq, List.append_nil]
        · intro k hk
          have hk2 := hset k hk
          rw [hts] at hk2
          exact fun hmem2 => hk2 (List.mem_cons_of_mem tzid hmem2)
      · refine ⟨l₁, tzid :: post, hl₁, ?_, ?_, ?_⟩
        · rw [heq]
          simp
        · refine List.nodup_cons.mpr ⟨?_, hnd⟩
          intro htz
          have hk2 := hset tzid htz
          rw [hts] at hk2
          exact hk2 (List.mem_cons_self tzid st.tzid_set)
        · intro k hk
          rcases List.mem_cons.mp hk with rfl | hk2
          · exact hmem
          · have hk3 := hset k hk2
            rw [hts] at hk3
            exact fun hmem2 => hk3 (List.mem_cons_of_mem tzid hmem2)

lemma tzid_process (ers : EventReplacementStrategy) (b : CalBuilder)
    (cal : Calendar) :
    ∃ pre post,
      List.Sublist pre (tzidKeysOf b.components) ∧
      tzidKeysOf ((CalBuilder.process ers b cal).components) = pre ++ post ∧
      post.Nodup := by
  obtain ⟨pre, post, h1, h2, h3, _⟩ :=
    tzid_fold_nodup ers cal.components ⟨b.components, b.id_map, []⟩
  exact ⟨pre, post, h1, h2, h3⟩

/-! ## First-seen-wins characterisation of the per-document dedup -/

lemma vtimezonesOf_append (cs ds : List CalendarComponent) :
    vtimezonesOf (cs ++ ds) = vtimezonesOf cs ++ vtimezonesOf ds :=
  List.filterMap_append cs ds _

lemma specFirstWins_cons_key_seen {o : Other} {k : String}
    (seen : List String) (os : List Other)
    (hpv : o.property_value "TZID" = some k) (hmem : k ∈ seen) :
    specFirstWins seen (o :: os) = specFirstWins seen os := by
  simp [specFirstWins, hpv, hmem]

lemma specFirstWins_cons_key_fresh {o : Other} {k : String}
    (seen : List String) (os : List Other)
    (hpv : o.property_value "TZID" = some k) (hmem : k ∉ seen) :
    specFirstWins seen (o :: os) = o :: specFirstWins (k :: seen) os := by
  simp [specFirstWins, hpv, hmem]

lemma specFirstWins_cons_nokey {o : Other} (seen : List String)
    (os : List Other) (hpv : o.property_value "TZID" = none) :
    specFirstWins seen (o :: os) = o :: specFirstWins seen os := by
  simp [specFirstWins, hpv]

lemma specFirstWins_nodup :
    ∀ (l : List Other) (seen : List String),
      ((specFirstWins seen l).filterMap
          (fun o => o.property_value "TZID")).Nodup ∧
      ∀ k ∈ (specFirstWins seen l).filterMap
          (fun o => o.property_value "TZID"), k ∉ seen := by
  intro l
  induction l with
  | nil =>
    intro seen
    constructor
    · simp [specFirstWins]
    · intro k hk
      simp [specFirstWins] at hk
  | cons o os ih =>
    intro seen
    cases hpv : o.property_value "TZID" with
    | none =>
      rw [specFirstWins_cons_nokey seen os hpv]
      simp only [List.filterMap_cons, hpv]
      exact ih seen
    | some k =>
      by_cases hmem : k ∈ seen
      · rw [specFirstWins_cons_key_seen seen os hpv hmem]
        exact ih seen
      · rw [specFirstWins_cons_key_fresh seen os hpv hmem]
        obtain ⟨ih1, ih2⟩ := ih (k :: seen)
        constructor
        · simp only [List.filterMap_cons, hpv]
          refine List.nodup_cons.mpr ⟨?_, ih1⟩
          intro hkmem
          exact (ih2 k hkmem) (List.mem_cons_self k seen)
        · simp only [List.filterMap_cons, hpv]
          intro k2 hk2
          rcases List.mem_cons.mp hk2 with rfl | hk3
          · exact hmem
          · exact fun hse => (ih2 k2 hk3) (List.mem_cons_of_mem k hse)

lemma vtimezones_fold (ers : EventReplacementStrategy) :
    ∀ (cs : List CalendarComponent) (st : ProcessState),
      StateInv st.components st.id_map →
      vtimezonesOf ((cs.foldl (processComponent ers) st).components) =
        vtimezonesOf st.components ++
          specFirstWins st.tzid_set (vtimezonesOf cs) := by
  intro cs
  induction cs with
  | nil =>
    intro st _
    rw [List.foldl_nil,
      show specFirstWins st.tzid_set (vtimezonesOf []) = [] from rfl,
      List.append_nil]
  | cons c cs ih =>
    intro st hinv
    have hinv' := stateInv_processComponent ers st c hinv
    rw [List.foldl_cons, ih (processComponent ers st c) hinv']
    cases c with
    | misc t =>
      rw [show (processComponent ers st (CalendarComponent.misc t)).components =
          st.components ++ [CalendarComponent.misc t] from rfl,
        show (processComponent ers st (CalendarComponent.misc t)).tzid_set =
          st.tzid_set from rfl,
        vtimezonesOf_append,
        show vtimezonesOf [CalendarComponent.misc t] = [] from rfl,
        List.append_nil,
        show vtimezonesOf (CalendarComponent.misc t :: cs) =
          vtimezonesOf cs from rfl]
    | event ev =>
      have hts := processComponent_event_tzid_set ers st ev
      have hvz : vtimezonesOf
          (processComponent ers st (CalendarComponent.event ev)).components =
          vtimezonesOf st.components := by
        cases hu : ev.get_uid with
        | none => rw [processComponent_event_nouid ers st ev hu]
        | some uid =>
          cases hl : lookupId st.id_map uid with
          | none =>
            rw [processComponent_event_fresh ers st ev uid hu hl]
            rw [show ({ st with
                id_map := (uid, st.components.length) :: st.id_map,
                components :=
                  st.components ++ [CalendarComponent.event ev] } :
                ProcessState).components =
              st.components ++ [CalendarComponent.event ev] from rfl]
            rw [vtimezonesOf_append,
              show vtimezonesOf [CalendarComponent.event ev] = [] from rfl,
              List.append_nil]
          | some index =>
            obtain ⟨old, hold, _⟩ := hinv.1 uid index hl
            rw [processComponent_event_found ers st ev old uid index hu hl hold]
            cases hrep : ers.must_replace ev old
            · simp only [hrep, Bool.false_eq_true, if_false]
            · simp only [hrep, if_true]
              apply filterMap_set_congr
              intro b hb
              rw [hold] at hb
              obtain rfl : CalendarComponent.event old = b :=
                Option.some.inj hb
              rfl
      rw [hvz, hts,
        show vtimezonesOf (CalendarComponent.event ev :: cs) =
          vtimezonesOf cs from rfl]
    | other o =>
      by_cases hk : o.kind = "VTIMEZONE"
      · have hvzc : vtimezonesOf (CalendarComponent.other o :: cs) =
            o :: vtimezonesOf cs := by
          simp [vtimezonesOf, List.filterMap_cons, hk]
        have hvzo : vtimezonesOf [CalendarComponent.other o] = [o] := by
          simp [vtimezonesOf, List.filterMap_cons, hk]
        cases hpv : o.property_value "TZID" with
        | none =>
          have hcomps :
              (processComponent ers st (CalendarComponent.other o)).components =
              st.components ++ [CalendarComponent.other o] := by
            simp [processComponent, hk, hpv]
          have hts :
              (processComponent ers st (CalendarComponent.other o)).tzid_set =
              st.tzid_set := by
            simp [processComponent, hk, hpv]
          rw [hcomps, hts, vtimezonesOf_append, hvzo, hvzc,
            specFirstWins_cons_nokey st.tzid_set (vtimezonesOf cs) hpv]
          simp
        | some k =>
          by_cases hmem : k ∈ st.tzid_set
          · have hstun :
                processComponent ers st (CalendarComponent.other o) = st := by
              simp [processComponent, hk, hpv, hmem]
            rw [hstun, hvzc,
              specFirstWins_cons_key_seen st.tzid_set (vtimezonesOf cs)
                hpv hmem]
          · have hcomps :
                (processComponent ers st
                  (CalendarComponent.other o)).components =
                st.components ++ [CalendarComponent.other o] := by
              simp [processComponent, hk, hpv, hmem]
            have hts :
                (processComponent ers st
                  (CalendarComponent.other o)).tzid_set =
                k :: st.tzid_set := by
              simp [processComponent, hk, hpv, hmem]
            rw [hcomps, hts, vtimezonesOf_append, hvzo, hvzc,
              specFirstWins_cons_key_fresh st.tzid_set (vtimezonesOf cs)
                hpv hmem]
            simp
      · have hcomps :
            (processComponent ers st (CalendarComponent.other o)).components =
            st.components ++ [CalendarComponent.other o] := by
          simp [processComponent, hk]
        have hts :
            (processComponent ers st (CalendarComponent.other o)).tzid_set =
            st.tzid_set := by
          simp [processComponent, hk]
        have hvzc : vtimezonesOf (CalendarComponent.other o :: cs) =
            vtimezonesOf cs := by
          simp [vtimezonesOf, List.filterMap_cons, hk]
        have hvzo : vtimezonesOf [CalendarComponent.other o] = [] := by
          simp [vtimezonesOf, List.filterMap_cons, hk]
        rw [hcomps, hts, vtimezonesOf_append, hvzo, List.append_nil, hvzc]

lemma vtimezones_process (ers : EventReplacementStrategy) (b : CalBuilder)
    (cal : Calendar) (hinv : StateInv b.components b.id_map) :
    vtimezonesOf ((CalBuilder.process ers b cal).components) =
      vtimezonesOf b.components ++
        specFirstWins [] (vtimezonesOf cal.components) :=
  vtimezones_fold ers cal.components ⟨b.components, b.id_map, []⟩ hinv

lemma vtimezones_run (ers : EventReplacementStrategy)
    (docs : List Calendar) :
    ∀ b : CalBuilder, StateInv b.components b.id_map →
      vtimezonesOf ((docs.foldl (CalBuilder.process ers) b).components) =
        vtimezonesOf b.components ++
          (docs.map (fun d =>
            specFirstWins [] (vtimezonesOf d.components))).flatten := by
  induction docs with
  | nil =>
    intro b _
    rw [List.foldl_nil, List.map_nil, List.flatten_nil, List.append_nil]
  | cons d ds ih =>
    intro b hinv
    rw [List.foldl_cons, ih (CalBuilder.process ers b d)
        (stateInv_process ers b d hinv),
      vtimezones_process ers b d hinv, List.map_cons, List.flatten_cons,
      List.append_assoc]

/-! ## Metadata resolution lemmas -/

lemma process_name (ers : EventReplacementStrategy) (b : CalBuilder)
    (cal : Calendar) :
    (CalBuilder.process ers b cal).name = b.name.or cal.name := rfl

lemma process_description (ers : EventReplacementStrategy) (b : CalBuilder)
    (cal : Calendar) :
    (CalBuilder.process ers b cal).description =
      b.description.or cal.description := rfl

lemma process_timezone (ers : EventReplacementStrategy) (b : CalBuilder)
    (cal : Calendar) :
    (CalBuilder.process ers b cal).timezone =
      b.timezone.or cal.timezone := rfl

lemma foldl_process_name (ers : EventReplacementStrategy)
    (docs : List Calendar) :
    ∀ b : CalBuilder,
      (docs.foldl (CalBuilder.process ers) b).name =
        b.name.or ((docs.filterMap Calendar.name).head?) := by
  induction docs with
  | nil => intro b; rw [List.foldl_nil]; simp
  | cons d ds ih =>
    intro b
    rw [List.foldl_cons, ih, process_name]
    cases hb : b.name <;> cases hd : d.name <;>
      simp [hb, hd, List.filterMap_cons]

lemma foldl_process_description (ers : EventReplacementStrategy)
    (docs : List Calendar) :
    ∀ b : CalBuilder,
      (docs.foldl (CalBuilder.process ers) b).description =
        b.description.or ((docs.filterMap Calendar.description).head?) := by
  induction docs with
  | nil => intro b; rw [List.foldl_nil]; simp
  | cons d ds ih =>
    intro b
    rw [List.foldl_cons, ih, process_description]
    cases hb : b.description <;> cases hd : d.description <;>
      simp [hb, hd, List.filterMap_cons]

lemma foldl_process_timezone (ers : EventReplacementStrategy)
    (docs : List Calendar) :
    ∀ b : CalBuilder,
      (docs.foldl (CalBuilder.process ers) b).timezone =
        b.timezone.or ((docs.filterMap Calendar.timezone).head?) := by
  induction docs with
  | nil => intro b; rw [List.foldl_nil]; simp
  | cons d ds ih =>
    intro b
    rw [List.foldl_cons, ih, process_timezone]
    cases hb : b.timezone <;> cases hd : d.timezone <;>
      simp [hb, hd, List.filterMap_cons]

/-! ## Parameter lookup lemmas -/

lemma lookupParam_cons (q : Parameter) (qs : List Parameter) (k : String) :
    lookupParam (q :: qs) k =
      if q.key = k then some q else lookupParam qs k := rfl

lemma lookupParam_some {l : List Parameter} {k : String} {t : Parameter}
    (h : lookupParam l k = some t) : t ∈ l ∧ t.key = k := by
  induction l with
  | nil => exact absurd h (by simp [lookupParam])
  | cons p ps ih =>
    rw [lookupParam_cons] at h
    by_cases hpk : p.key = k
    · rw [if_pos hpk] at h
      obtain rfl : p = t := Option.some.inj h
      exact ⟨List.mem_cons_self p ps, hpk⟩
    · rw [if_neg hpk] at h
      obtain ⟨h1, h2⟩ := ih h
      exact ⟨List.mem_cons_of_mem p h1, h2⟩

lemma lookupParam_none {l : List Parameter} {k : String}
    (h : lookupParam l k = none) : ∀ q ∈ l, q.key ≠ k := by
  induction l with
  | nil => intro q hq; exact absurd hq (List.not_mem_nil q)
  | cons p ps ih =>
    rw [lookupParam_cons] at h
    by_cases hpk : p.key = k
    · rw [if_pos hpk] at h
      exact absurd h (by simp)
    · rw [if_neg hpk] at h
      intro q hq
      rcases List.mem_cons.mp hq with rfl | hq2
      · exact hpk
      · exact ih h q hq2

lemma lookupParam_unique {l : List Parameter} {k : String} {q : Parameter}
    (hnd : (l.map Parameter.key).Nodup) (hq : q ∈ l) (hk : q.key = k) :
    lookupParam l k = some q := by
  induction l with
  | nil => exact absurd hq (List.not_mem_nil q)
  | cons p ps ih =>
    rw [List.map_cons] at hnd
    obtain ⟨hnotin, hnd2⟩ := List.nodup_cons.mp hnd
    rcases List.mem_cons.mp hq with rfl | hq2
    · rw [lookupParam_cons, if_pos hk]
    · have hpk : p.key ≠ k := by
        intro hpk
        apply hnotin
        rw [hpk, ← hk]
        exact List.mem_map.mpr ⟨q, hq2, rfl⟩
      rw [lookupParam_cons, if_neg hpk]
      exact ih hnd2 hq2

/-- The specification-side description of the time-zone substitution, word
for word from the spec: on every property, any parameter whose key is the
time-zone reference key `TZID` and whose value equals `from_tz` has its
value set to `to_tz`; every other parameter, and the property's own key
and value, are unchanged. -/
def specTzSubstProperty (from_tz to_tz : String) (p : Property) : Property :=
  ⟨p.key, p.value,
   p.params.map (fun q =>
     if q.key = "TZID" ∧ q.value = from_tz then ⟨"TZID", to_tz⟩ else q)⟩

lemma tzSubstProperty_spec (from_tz to_tz : String) (p : Property)
    (hnd : (p.params.map Parameter.key).Nodup) :
    tzSubstProperty from_tz to_tz p = specTzSubstProperty from_tz to_tz p := by
  cases hlp : lookupParam p.params "TZID" with
  | none =>
    have hnone : ∀ q ∈ p.params, q.key ≠ "TZID" := lookupParam_none hlp
    have hmap : p.params.map (fun q =>
        if q.key = "TZID" ∧ q.value = from_tz then
          (⟨"TZID", to_tz⟩ : Parameter)
        else q) = p.params.map id := by
      apply List.map_congr_left
      intro q hq
      rw [if_neg]
      · rfl
      · rintro ⟨h1, _⟩
        exact hnone q hq h1
    simp only [tzSubstProperty, hlp, Bool.false_eq_true, if_false,
      specTzSubstProperty, hmap, List.map_id]
  | some t =>
    obtain ⟨htmem, htkey⟩ := lookupParam_some hlp
    by_cases hval : t.value = from_tz
    · have hb : (t.value == from_tz) = true := by simp [hval]
      simp only [tzSubstProperty, hlp, hb, if_true, specTzSubstProperty]
      refine congrArg (Property.mk p.key p.value) ?_
      apply List.map_congr_left
      intro q hq
      by_cases hqk : q.key = "TZID"
      · have hlq : lookupParam p.params "TZID" = some q :=
          lookupParam_unique hnd hq hqk
        rw [hlp] at hlq
        obtain rfl : t = q := Option.some.inj hlq
        rw [if_pos (by simp [hqk]), if_pos ⟨hqk, hval⟩, hqk]
      · rw [if_neg (by simp [hqk]), if_neg (by rintro ⟨h1, _⟩; exact hqk h1)]
    · have hb : (t.value == from_tz) = false := by simp [hval]
      simp only [tzSubstProperty, hlp, hb, Bool.false_eq_true, if_false,
        specTzSubstProperty]
      have hmap : p.params.map (fun q =>
          if q.key = "TZID" ∧ q.value = from_tz then
            (⟨"TZID", to_tz⟩ : Parameter)
          else q) = p.params.map id := by
        apply List.map_congr_left
        intro q hq
        rw [if_neg]
        · rfl
        · rintro ⟨h1, h2⟩
          have hlq : lookupParam p.params "TZID" = some q :=
            lookupParam_unique hnd hq h1
          rw [hlp] at hlq
          obtain rfl : t = q := Option.some.inj hlq
          exact hval h2
      rw [hmap, List.map_id]

/-! ## Concrete sample values used by witnesses and counterexamples -/

def evtA : Event := ⟨[⟨"UID", "a", []⟩]⟩

def evtB : Event := ⟨[⟨"UID", "b", []⟩]⟩

def evtA2 : Event := ⟨[⟨"UID", "a", []⟩, ⟨"SUMMARY", "s", []⟩]⟩

def docAB : Calendar :=
  ⟨none, none, none, [CalendarComponent.event evtA, CalendarComponent.event evtB]⟩

def tzDocA : Calendar :=
  ⟨none, none, none, [CalendarComponent.other ⟨"VTIMEZONE", [⟨"TZID", "A", []⟩]⟩]⟩

def docMixed : Calendar :=
  ⟨none, none, none,
   [CalendarComponent.event ⟨[⟨"SUMMARY", "party", []⟩]⟩,
    CalendarComponent.event ⟨[⟨"UID", "u1", []⟩]⟩]⟩

def bC3 : CalBuilder :=
  ⟨[CalendarComponent.event evtA], [("a", 0)], none, none, none⟩

def bUidless : CalBuilder :=
  ⟨[CalendarComponent.event ⟨[]⟩], [], none, none, none⟩

def emptyCal : Calendar := ⟨none, none, none, []⟩

def bMeta : CalBuilder := ⟨[], [], some "n", some "d", some "t"⟩

def calMeta : Calendar := ⟨some "n2", some "d2", some "t2", []⟩

def evTz : Event :=
  ⟨[⟨"DTSTART", "20200101T100000", [⟨"TZID", "Greenwich"⟩]⟩]⟩

/-! ## Claim theorems -/

/-- C1 counterexample: the claim fails as stated, because the run can
select the `SetProp UID x` processor, whose transform rewrites every
event's UID to the same value; merging two events with distinct UIDs and
assembling with it yields two output events with the same UID. -/
theorem assembled_uid_unique_cex :
    ¬ (uidsOf ((buildAll defaultEventReplacementStrategy none none
        [docAB]).calendar
        (replacePropEventProcessor "UID" "x") ()).components).Nodup := by
  decide

/-- C1 (amended): for every sequence of ingested documents and every
event processor whose transform preserves event UIDs (as the default,
property-removal on other properties, time-zone substitution and limit
processors do), the assembled output contains at most one Event per
distinct UID. -/
theorem assembled_uid_unique {σ : Type} (ep : EventProcessor σ)
    (hpres : ∀ (s : σ) (e e2 : Event) (s2 : σ),
      ep.transform s e = (some e2, s2) → e2.get_uid = e.get_uid)
    (ers : EventReplacementStrategy) (nm dsc : Option String)
    (docs : List Calendar) (s : σ) :
    (uidsOf ((buildAll ers nm dsc docs).calendar ep s).components).Nodup := by
  have hnd := (stateInv_buildAll ers nm dsc docs).2.2
  have hsub := uidsOf_calendarLoop_sublist ep hpres s
    (buildAll ers nm dsc docs).components
  exact hnd.sublist hsub

/-- Witness for C1: the amended theorem applied to the default processor
on a concrete run. -/
theorem assembled_uid_unique_witness :
    (uidsOf ((buildAll defaultEventReplacementStrategy none none
        [docAB]).calendar defaultEventProcessor ()).components).Nodup :=
  assembled_uid_unique defaultEventProcessor
    (by intro s e e2 s2 h; simp [defaultEventProcessor] at h)
    defaultEventReplacementStrategy none none [docAB] ()

/-- C2 counterexample: the seen-secondary-key set does not persist across
ingested documents — `tzid_set` is created afresh inside each `process`
call — so ingesting the same one-`VTIMEZONE` document twice retains two
components with the same `TZID` secondary key. -/
theorem vtimezone_dedup_cross_document_cex :
    ¬ (tzidKeysOf ((buildAll defaultEventReplacementStrategy none none
        [tzDocA, tzDocA]).components)).Nodup := by
  decide

/-- C2 (amended): the secondary-key deduplication is scoped to a single
ingested document and is first-seen-wins there. Ingesting one more
document into any reachable builder leaves the previously retained
deduplicated-kind (`VTIMEZONE`) components untouched and appends exactly
the first-seen-key-wins deduplication — with the seen-key set starting
empty, i.e. reset per document — of that document's deduplicated-kind
components: the first component carrying a given secondary key is
retained, every later one whose key was already seen in the same
document is dropped (never substituted for the retained one), and the
keys retained from one document are pairwise distinct. Across a whole
run the retained deduplicated-kind components are the concatenation of
each document's own first-wins deduplication, so a key seen in an
earlier document does not suppress the same key in a later one. -/
theorem vtimezone_dedup_per_document (ers : EventReplacementStrategy)
    (nm dsc : Option String) (docs : List Calendar) (cal : Calendar) :
    (vtimezonesOf ((CalBuilder.process ers (buildAll ers nm dsc docs)
        cal).components) =
      vtimezonesOf ((buildAll ers nm dsc docs).components) ++
        specFirstWins [] (vtimezonesOf cal.components)) ∧
    ((specFirstWins [] (vtimezonesOf cal.components)).filterMap
        (fun o => o.property_value "TZID")).Nodup ∧
    vtimezonesOf ((buildAll ers nm dsc docs).components) =
      (docs.map (fun d =>
        specFirstWins [] (vtimezonesOf d.components))).flatten := by
  refine ⟨?_, (specFirstWins_nodup (vtimezonesOf cal.components) []).1, ?_⟩
  · exact vtimezones_process ers (buildAll ers nm dsc docs) cal
      (stateInv_buildAll ers nm dsc docs)
  · have h := vtimezones_run ers docs (newCalBuilder nm dsc) stateInv_nil
    rw [show vtimezonesOf ((newCalBuilder nm dsc) : CalBuilder).components =
        [] from rfl, List.nil_append] at h
    exact h

/-- C3: when an ingested event's UID is already indexed at `index` and the
slot holds an event, the default policy signals replacement and `process`
overwrites `sequence[index]` in place: the id map is unchanged and the
sequence keeps its length, so the replacing event occupies the original
position instead of being appended. -/
theorem replace_in_place (b : CalBuilder) (ev old_event : Event)
    (uid : String) (index : Nat) (hu : ev.get_uid = some uid)
    (hl : lookupId b.id_map uid = some index)
    (hold : b.components[index]? = some (CalendarComponent.event old_event)) :
    defaultEventReplacementStrategy.must_replace ev old_event = true ∧
    (CalBuilder.process defaultEventReplacementStrategy b
        ⟨none, none, none, [CalendarComponent.event ev]⟩).components =
      b.components.set index (CalendarComponent.event ev) ∧
    (CalBuilder.process defaultEventReplacementStrategy b
        ⟨none, none, none, [CalendarComponent.event ev]⟩).id_map = b.id_map ∧
    (b.components.set index (CalendarComponent.event ev)).length =
      b.components.length := by
  have hstep := processComponent_event_found defaultEventReplacementStrategy
    ⟨b.components, b.id_map, []⟩ ev old_event uid index hu hl hold
  refine ⟨rfl, ?_, ?_, by simp⟩
  · show (List.foldl (processComponent defaultEventReplacementStrategy)
      ⟨b.components, b.id_map, []⟩ [CalendarComponent.event ev]).components = _
    rw [List.foldl_cons, List.foldl_nil, hstep]
    simp [defaultEventReplacementStrategy]
  · show (List.foldl (processComponent defaultEventReplacementStrategy)
      ⟨b.components, b.id_map, []⟩ [CalendarComponent.event ev]).id_map = _
    rw [List.foldl_cons, List.foldl_nil, hstep]
    simp [defaultEventReplacementStrategy]

/-- Witness for C3: a concrete in-place replacement. -/
theorem replace_in_place_witness :
    defaultEventReplacementStrategy.must_replace evtA2 evtA = true ∧
    (CalBuilder.process defaultEventReplacementStrategy bC3
        ⟨none, none, none, [CalendarComponent.event evtA2]⟩).components =
      bC3.components.set 0 (CalendarComponent.event evtA2) ∧
    (CalBuilder.process defaultEventReplacementStrategy bC3
        ⟨none, none, none, [CalendarComponent.event evtA2]⟩).id_map =
      bC3.id_map ∧
    (bC3.components.set 0 (CalendarComponent.event evtA2)).length =
      bC3.components.length :=
  replace_in_place bC3 evtA2 evtA "a" 0 (by decide) (by decide) (by decide)

/-- C4: after any sequence of ingest calls on a fresh builder, the
retained events have pairwise distinct UIDs, and for every UID recorded
in the identity index the component stored at the indexed position is an
Event whose UID equals that key. -/
theorem builder_invariant (ers : EventReplacementStrategy)
    (nm dsc : Option String) (docs : List Calendar) :
    (uidsOf (buildAll ers nm dsc docs).components).Nodup ∧
    ∀ uid index,
      lookupId (buildAll ers nm dsc docs).id_map uid = some index →
      ∃ e, (buildAll ers nm dsc docs).components[index]? =
          some (CalendarComponent.event e) ∧ e.get_uid = some uid := by
  obtain ⟨h1, _, h3⟩ := stateInv_buildAll ers nm dsc docs
  exact ⟨h3, h1⟩

/-- Witness for C4: the invariant applied to a concrete two-event run. -/
theorem builder_invariant_witness :
    (uidsOf (buildAll defaultEventReplacementStrategy none none
        [docAB]).components).Nodup ∧
    ∃ e, (buildAll defaultEventReplacementStrategy none none
        [docAB]).components[0]? =
        some (CalendarComponent.event e) ∧ e.get_uid = some "a" :=
  ⟨(builder_invariant defaultEventReplacementStrategy none none [docAB]).1,
   (builder_invariant defaultEventReplacementStrategy none none
     [docAB]).2 "a" 0 (by decide)⟩

/-- C5: each calendar metadata field resolves to the first present value
in the order override-then-documents (the caller override, when supplied,
beats every document; the timezone has no override and starts unset), and
once a field holds a value, no later ingest changes it. -/
theorem metadata_first_wins (ers : EventReplacementStrategy)
    (nm dsc : Option String) (docs : List Calendar) :
    ((buildAll ers nm dsc docs).name =
        nm.or ((docs.filterMap Calendar.name).head?) ∧
      (buildAll ers nm dsc docs).description =
        dsc.or ((docs.filterMap Calendar.description).head?) ∧
      (buildAll ers nm dsc docs).timezone =
        (docs.filterMap Calendar.timezone).head?) ∧
    (∀ (b : CalBuilder) (cal : Calendar) (v : String),
      b.name = some v → (CalBuilder.process ers b cal).name = some v) ∧
    (∀ (b : CalBuilder) (cal : Calendar) (v : String),
      b.description = some v →
        (CalBuilder.process ers b cal).description = some v) ∧
    (∀ (b : CalBuilder) (cal : Calendar) (v : String),
      b.timezone = some v →
        (CalBuilder.process ers b cal).timezone = some v) := by
  refine ⟨⟨?_, ?_, ?_⟩, ?_, ?_, ?_⟩
  · exact foldl_process_name ers docs (newCalBuilder nm dsc)
  · exact foldl_process_description ers docs (newCalBuilder nm dsc)
  · exact (foldl_process_timezone ers docs (newCalBuilder nm dsc)).trans
      (by simp [newCalBuilder])
  · intro b cal v hv
    rw [process_name, hv]
    rfl
  · intro b cal v hv
    rw [process_description, hv]
    rfl
  · intro b cal v hv
    rw [process_timezone, hv]
    rfl

/-- Witness for C5: once resolved, a later ingest changes nothing. -/
theorem metadata_first_wins_witness :
    (CalBuilder.process defaultEventReplacementStrategy bMeta calMeta).name =
      some "n" ∧
    (CalBuilder.process defaultEventReplacementStrategy bMeta
      calMeta).description = some "d" ∧
    (CalBuilder.process defaultEventReplacementStrategy bMeta
      calMeta).timezone = some "t" := by
  have h := metadata_first_wins defaultEventReplacementStrategy none none []
  exact ⟨h.2.1 bMeta calMeta "n" rfl, h.2.2.1 bMeta calMeta "d" rfl,
    h.2.2.2 bMeta calMeta "t" rfl⟩

/-- C6: the Replace-Property transform leaves exactly one property named
`property` — the fresh `property = value` with no parameters — however
many there were before, and the properties with other names are exactly
the original ones in their original relative order. -/
theorem replace_prop_collapses (property value : String) (e : Event) :
    (replacePropEventProcessor property value).transform () e =
      (some (replacePropTransform property value e), ()) ∧
    (replacePropTransform property value e).properties.filter
        (fun p => p.key == property) = [⟨property, value, []⟩] ∧
    (replacePropTransform property value e).properties.filter
        (fun p => !(p.key == property)) =
      e.properties.filter (fun p => !(p.key == property)) := by
  refine ⟨rfl, ?_, ?_⟩
  · show ((e.properties.filter (fun p => !(p.key == property)) ++
        [(⟨property, value, []⟩ : Property)]).filter
        (fun p => p.key == property)) = _
    rw [List.filter_append]
    have h1 : (e.properties.filter (fun p => !(p.key == property))).filter
        (fun p => p.key == property) = [] := by
      apply List.filter_eq_nil_iff.mpr
      intro a ha
      have ha2 := (List.mem_filter.mp ha).2
      simp at ha2 ⊢
      exact ha2
    have h2 : (([⟨property, value, []⟩] : List Property).filter
        (fun p => p.key == property)) = [⟨property, value, []⟩] := by
      simp
    rw [h1, h2, List.nil_append]
  · show ((e.properties.filter (fun p => !(p.key == property)) ++
        [(⟨property, value, []⟩ : Property)]).filter
        (fun p => !(p.key == property))) = _
    rw [List.filter_append]
    have h3 : (([⟨property, value, []⟩] : List Property).filter
        (fun p => !(p.key == property))) = [] := by
      simp
    have h4 : (e.properties.filter (fun p => !(p.key == property))).filter
        (fun p => !(p.key == property)) =
        e.properties.filter (fun p => !(p.key == property)) := by
      rw [List.filter_filter]
      simp only [Bool.and_self]
    rw [h3, h4, List.append_nil]

/-- C7: on an event whose properties each carry map-like (duplicate-free)
parameter keys, the Timezone-Substitute transform equals the
specification-side description: every `TZID` parameter valued `from_tz`
becomes `to_tz`, and every other parameter and every property key and
value pass through unchanged. -/
theorem tzsubst_rewrites_tzid_only (from_tz to_tz : String) (e : Event)
    (hnd : ∀ p ∈ e.properties, (p.params.map Parameter.key).Nodup) :
    (tzSubstEventProcessor from_tz to_tz).transform () e =
      (some (tzSubstTransform from_tz to_tz e), ()) ∧
    tzSubstTransform from_tz to_tz e =
      ⟨e.properties.map (specTzSubstProperty from_tz to_tz)⟩ := by
  refine ⟨rfl, ?_⟩
  refine congrArg Event.mk ?_
  apply List.map_congr_left
  intro p hp
  exact tzSubstProperty_spec from_tz to_tz p (hnd p hp)

/-- Witness for C7: a concrete relabeling from Greenwich to UTC. -/
theorem tzsubst_rewrites_tzid_only_witness :
    (tzSubstEventProcessor "Greenwich" "UTC").transform () evTz =
      (some (tzSubstTransform "Greenwich" "UTC" evTz), ()) ∧
    tzSubstTransform "Greenwich" "UTC" evTz =
      ⟨evTz.properties.map (specTzSubstProperty "Greenwich" "UTC")⟩ :=
  tzsubst_rewrites_tzid_only "Greenwich" "UTC" evTz (by decide)

/-- C8: assembling with the Limit processor seeded to `max` emits exactly
the first `min max n` of the `n` retained events — the counter decrements
on each kept event across the whole run and never transforms. -/
theorem limit_keeps_first_max (b : CalBuilder) (max : Nat) :
    eventsOf ((b.calendar limitEventProcessor max).components) =
      (eventsOf b.components).take max ∧
    (eventsOf ((b.calendar limitEventProcessor max).components)).length =
      min max (eventsOf b.components).length := by
  have h : eventsOf ((b.calendar limitEventProcessor max).components) =
      (eventsOf b.components).take max :=
    eventsOf_calendarLoop_limit max b.components
  refine ⟨h, ?_⟩
  rw [h, List.length_take]

/-- C9: an ingested event without a UID is never retained (any UID-less
event in the output sequence was already in the builder before the
ingest), ingestion is total, and a document with one UID-less and one
valid event yields exactly the valid event. -/
theorem uidless_dropped (ers : EventReplacementStrategy) (b : CalBuilder)
    (cal : Calendar) (e : Event)
    (hmem : CalendarComponent.event e ∈
      (CalBuilder.process ers b cal).components)
    (hu : e.get_uid = none) :
    CalendarComponent.event e ∈ b.components ∧
    (CalBuilder.process defaultEventReplacementStrategy
        (newCalBuilder none none) docMixed).components =
      [CalendarComponent.event ⟨[⟨"UID", "u1", []⟩]⟩] :=
  ⟨mem_process_uidless ers b cal e hu hmem, by decide⟩

/-- Witness for C9: a UID-less event surviving a no-op ingest was already
in the builder. -/
theorem uidless_dropped_witness :
    CalendarComponent.event (⟨[]⟩ : Event) ∈ bUidless.components ∧
    (CalBuilder.process defaultEventReplacementStrategy
        (newCalBuilder none none) docMixed).components =
      [CalendarComponent.event ⟨[⟨"UID", "u1", []⟩]⟩] :=
  uidless_dropped defaultEventReplacementStrategy bUidless emptyCal ⟨[]⟩
    (by decide) (by decide)

/-- C10: in every reachable builder state, a successful identity-index
lookup is in bounds of the component sequence and the slot holds an Event
with the looked-up UID, so the non-Event fallback arm of the duplicate
branch is unreachable. -/
theorem identity_index_sound (ers : EventReplacementStrategy)
    (nm dsc : Option String) (docs : List Calendar) (uid : String)
    (index : Nat)
    (h : lookupId (buildAll ers nm dsc docs).id_map uid = some index) :
    index < (buildAll ers nm dsc docs).components.length ∧
    ∃ e, (buildAll ers nm dsc docs).components[index]? =
        some (CalendarComponent.event e) ∧ e.get_uid = some uid := by
  obtain ⟨h1, _, _⟩ := stateInv_buildAll ers nm dsc docs
  obtain ⟨e, he, hue⟩ := h1 uid index h
  exact ⟨lt_length_of_getElem?_some he, e, he, hue⟩

/-- Witness for C10: a concrete successful lookup. -/
theorem identity_index_sound_witness :
    0 < (buildAll defaultEventReplacementStrategy none none
        [docAB]).components.length ∧
    ∃ e, (buildAll defaultEventReplacementStrategy none none
        [docAB]).components[0]? =
        some (CalendarComponent.event e) ∧ e.get_uid = some "a" :=
  identity_index_sound defaultEventReplacementStrategy none none
    [docAB] "a" 0 (by decide)

end Icalm
